import Mathlib

set_option linter.unusedVariables false

/-!
Verification of the OpenCL Mandelbrot evaluator (src/mandelbrot.py).

The kernel (KernelSource, lines 21-59) is embedded as pure Lean functions
over exact rational arithmetic standing in for IEEE doubles: every claimed
value in the spec (coordinates at grid corners, the escape comparison at
the boundary scenario) is exactly representable, and all relational claims
(monotonicity in the iteration bound, determinism, frame conditions) are
insensitive to the rounding mode.

The dispatch harness (main, lines 61-87) is embedded as a fold of per-point
kernel invocations over a schedule of grid points; OpenCL leaves the
execution order of work items unspecified, so the schedule is an explicit
parameter and determinism is proved as schedule-independence.
-/

namespace Mandelbrot

/-- Line 35 of src/mandelbrot.py: double c_real = x * 3.0 / (WIDTH - 1) - 2.0. -/
def c_real (x w : ℕ) : ℚ := (x : ℚ) * 3 / ((w : ℚ) - 1) - 2

/-- Line 36: double c_imag = y * 2.0 / (HEIGHT - 1) - 1.0. -/
def c_imag (y h : ℕ) : ℚ := (y : ℚ) * 2 / ((h : ℚ) - 1) - 1

/-- Line 50: norm = z_real * z_real + z_imag * z_imag. -/
def normSq (zr zi : ℚ) : ℚ := zr * zr + zi * zi

/-- Lines 45-47: one orbit update, returning the new (z_real, z_imag). -/
def stepZ (cr ci zr zi : ℚ) : ℚ × ℚ := (zr * zr - zi * zi + cr, 2 * zr * zi + ci)

/-- Lines 43-55: the for loop. Arguments zr zi are the current orbit state,
i the loop counter, and the last argument the number of remaining
iterations; the loop returns divergence_at: the counter value at the first
escape, or 0 when the iterations are exhausted without escape. -/
def mandelLoop (cr ci : ℚ) : ℚ → ℚ → ℕ → ℕ → ℕ
  | _, _, _, 0 => 0
  | zr, zi, i, fuel + 1 =>
    let z := stepZ cr ci zr zi
    if 4 < normSq z.1 z.2 then i else mandelLoop cr ci z.1 z.2 (i + 1) fuel

/-- The value the kernel computes for grid point (x, y): the loop of lines
43-55 started from z = (0, 0) with counter 1, on the coordinates of lines
35-36. -/
def mandelbrot (x y w h bound : ℕ) : ℕ :=
  mandelLoop (c_real x w) (c_imag y h) 0 0 1 bound

/-- One kernel invocation acting on the output buffer: the guard of lines
31-33 returns without writing when the work item is out of range, otherwise
line 57 writes divergence_at to slot y * WIDTH + x. -/
def mandelbrotKernel (w h bound : ℕ) (out : List ℕ) (p : ℕ × ℕ) : List ℕ :=
  if w ≤ p.1 ∨ h ≤ p.2 then out
  else out.set (p.2 * w + p.1) (mandelbrot p.1 p.2 w h bound)

/-- The full 2-D index space of the launch (line 76: globalrange =
(WIDTH, HEIGHT)), enumerated in row-major order; OpenCL does not fix the
execution order, so runWith below takes an arbitrary permutation of it. -/
def gridSchedule (w h : ℕ) : List (ℕ × ℕ) :=
  (List.range (w * h)).map (fun i => (i % w, i / w))

/-- The launch of line 78 under an explicit schedule: every scheduled work
item runs the kernel once, each updating the buffer. -/
def runWith (w h bound : ℕ) (order : List (ℕ × ℕ)) (init : List ℕ) : List ℕ :=
  order.foldl (mandelbrotKernel w h bound) init

/-- The DivergenceMap produced by the harness: the device buffer (modelled
with all slots 0 before the launch) after every work item of the grid has
run, read back row-major as on lines 82-83. -/
def runMap (w h bound : ℕ) : List ℕ :=
  runWith w h bound (gridSchedule w h) (List.replicate (w * h) 0)

/-- The harness main (lines 61-87) parameterized by the three configuration
values. The code performs no validation of width, height or iterationBound:
it proceeds directly to buffer allocation (line 67), kernel launch (line 78)
and read-back (line 83), so a DivergenceMap is produced unconditionally.
Acquisition of the OpenCL context (line 63) is assumed to succeed; only the
configuration-handling behaviour is modelled. -/
def run (w h bound : ℕ) : Option (List ℕ) := some (runMap w h bound)

/-- Line 68: the device buffer size in bytes, WIDTH * HEIGHT times the
itemsize of np.float64. -/
def dOutNbytes (w h : ℕ) : ℕ := w * h * 8

/-- Lines 82-83: the host array np.empty((HEIGHT, WIDTH), dtype=np.int32)
has HEIGHT * WIDTH elements of 4 bytes each. -/
def hOutSlots (w h : ℕ) : ℕ := h * w

/-- Byte width of the np.int32 elements stored by the kernel and host array. -/
def int32Itemsize : ℕ := 4

/-- The orbit of the spec glossary: z_0 = (0,0), z_{n+1} = z_n^2 + c. -/
def orbit (cr ci : ℚ) : ℕ → ℚ × ℚ
  | 0 => (0, 0)
  | n + 1 => stepZ cr ci (orbit cr ci n).1 (orbit cr ci n).2

/-- The orbit escapes at iteration i: its squared norm exceeds 4. -/
def escapesAt (cr ci : ℚ) (i : ℕ) : Prop :=
  4 < normSq (orbit cr ci i).1 (orbit cr ci i).2

instance (cr ci : ℚ) (i : ℕ) : Decidable (escapesAt cr ci i) :=
  inferInstanceAs (Decidable (4 < normSq (orbit cr ci i).1 (orbit cr ci i).2))

/-! Helper lemmas about the loop. -/

theorem mandelLoop_succ (cr ci zr zi : ℚ) (i fuel : ℕ) :
    mandelLoop cr ci zr zi i (fuel + 1) =
      if 4 < normSq (stepZ cr ci zr zi).1 (stepZ cr ci zr zi).2 then i
      else mandelLoop cr ci (stepZ cr ci zr zi).1 (stepZ cr ci zr zi).2 (i + 1) fuel := rfl

theorem mandelLoop_eq_zero_or_lt (cr ci : ℚ) :
    ∀ (fuel : ℕ) (zr zi : ℚ) (i : ℕ),
      mandelLoop cr ci zr zi i fuel = 0 ∨ mandelLoop cr ci zr zi i fuel < i + fuel := by
  intro fuel
  induction fuel with
  | zero => intro zr zi i; exact Or.inl rfl
  | succ fuel ih =>
    intro zr zi i
    rw [mandelLoop_succ]
    by_cases hesc : 4 < normSq (stepZ cr ci zr zi).1 (stepZ cr ci zr zi).2
    · rw [if_pos hesc]; right; omega
    · rw [if_neg hesc]
      rcases ih (stepZ cr ci zr zi).1 (stepZ cr ci zr zi).2 (i + 1) with h0 | hlt
      · exact Or.inl h0
      · right; omega

theorem mandelbrot_le_bound (x y w h bound : ℕ) : mandelbrot x y w h bound ≤ bound := by
  have := mandelLoop_eq_zero_or_lt (c_real x w) (c_imag y h) bound 0 0 1
  unfold mandelbrot
  omega

theorem mandelLoop_pos_stable (cr ci : ℚ) :
    ∀ (fuel fuel' : ℕ), fuel ≤ fuel' → ∀ (zr zi : ℚ) (i : ℕ),
      mandelLoop cr ci zr zi i fuel ≠ 0 →
      mandelLoop cr ci zr zi i fuel' = mandelLoop cr ci zr zi i fuel := by
  intro fuel
  induction fuel with
  | zero => intro fuel' _ zr zi i hne; exact absurd rfl hne
  | succ fuel ih =>
    intro fuel' hle zr zi i hne
    obtain ⟨fuel2, rfl⟩ : ∃ k, fuel' = k + 1 := ⟨fuel' - 1, by omega⟩
    rw [mandelLoop_succ, mandelLoop_succ]
    by_cases hesc : 4 < normSq (stepZ cr ci zr zi).1 (stepZ cr ci zr zi).2
    · rw [if_pos hesc, if_pos hesc]
    · rw [if_neg hesc, if_neg hesc]
      rw [mandelLoop_succ, if_neg hesc] at hne
      exact ih fuel2 (by omega) _ _ _ hne

theorem mandelLoop_zero_c : ∀ (fuel i : ℕ), mandelLoop 0 0 0 0 i fuel = 0 := by
  intro fuel
  induction fuel with
  | zero => intro i; rfl
  | succ fuel ih =>
    intro i
    rw [mandelLoop_succ]
    have hz : stepZ 0 0 0 0 = ((0 : ℚ), (0 : ℚ)) := by
      simp [stepZ]
    rw [hz]
    have hn : ¬ (4 : ℚ) < normSq 0 0 := by norm_num [normSq]
    rw [if_neg hn]
    exact ih (i + 1)

theorem orbit_succ (cr ci : ℚ) (n : ℕ) :
    orbit cr ci (n + 1) = stepZ cr ci (orbit cr ci n).1 (orbit cr ci n).2 := rfl

theorem mandelLoop_firstEscape (cr ci : ℚ) (fuel : ℕ) :
    ∀ n,
      (mandelLoop cr ci (orbit cr ci n).1 (orbit cr ci n).2 (n + 1) fuel = 0 ∧
        ∀ k, n + 1 ≤ k → k ≤ n + fuel → ¬ escapesAt cr ci k) ∨
      (n + 1 ≤ mandelLoop cr ci (orbit cr ci n).1 (orbit cr ci n).2 (n + 1) fuel ∧
        mandelLoop cr ci (orbit cr ci n).1 (orbit cr ci n).2 (n + 1) fuel ≤ n + fuel ∧
        escapesAt cr ci (mandelLoop cr ci (orbit cr ci n).1 (orbit cr ci n).2 (n + 1) fuel) ∧
        ∀ j, n + 1 ≤ j → j < mandelLoop cr ci (orbit cr ci n).1 (orbit cr ci n).2 (n + 1) fuel →
          ¬ escapesAt cr ci j) := by
  induction fuel with
  | zero =>
    intro n
    exact Or.inl ⟨rfl, fun k h1 h2 => by omega⟩
  | succ fuel ih =>
    intro n
    have hstep : mandelLoop cr ci (orbit cr ci n).1 (orbit cr ci n).2 (n + 1) (fuel + 1) =
        if 4 < normSq (orbit cr ci (n + 1)).1 (orbit cr ci (n + 1)).2 then n + 1
        else mandelLoop cr ci (orbit cr ci (n + 1)).1 (orbit cr ci (n + 1)).2 (n + 1 + 1) fuel := by
      rw [mandelLoop_succ, orbit_succ]
    by_cases hesc : 4 < normSq (orbit cr ci (n + 1)).1 (orbit cr ci (n + 1)).2
    · rw [hstep, if_pos hesc]
      exact Or.inr ⟨Nat.le_refl _, by omega, hesc, fun j h1 h2 => by omega⟩
    · rw [hstep, if_neg hesc]
      have hne : ¬ escapesAt cr ci (n + 1) := hesc
      rcases ih (n + 1) with ⟨h0, hall⟩ | ⟨hlo, hhi, hescr, hmin⟩
      · refine Or.inl ⟨h0, fun k hk1 hk2 => ?_⟩
        by_cases hk : k = n + 1
        · exact hk ▸ hne
        · exact hall k (by omega) (by omega)
      · refine Or.inr ⟨by omega, by omega, hescr, fun j hj1 hj2 => ?_⟩
        by_cases hj : j = n + 1
        · exact hj ▸ hne
        · exact hmin j (by omega) (by omega)

/-! Helper lemmas about the dispatch harness. -/

theorem length_mandelbrotKernel (w h bound : ℕ) (out : List ℕ) (p : ℕ × ℕ) :
    (mandelbrotKernel w h bound out p).length = out.length := by
  unfold mandelbrotKernel
  split
  · rfl
  · exact List.length_set out _ _

theorem length_runWith (w h bound : ℕ) :
    ∀ (order : List (ℕ × ℕ)) (init : List ℕ),
      (runWith w h bound order init).length = init.length := by
  intro order
  induction order with
  | nil => intro init; rfl
  | cons p order ih =>
    intro init
    show (runWith w h bound order (mandelbrotKernel w h bound init p)).length = init.length
    rw [ih, length_mandelbrotKernel]

theorem runMap_length (w h bound : ℕ) : (runMap w h bound).length = w * h := by
  rw [runMap, length_runWith, List.length_replicate]

theorem slot_of_index (w : ℕ) {i : ℕ} : (i / w) * w + i % w = i := by
  rw [Nat.mul_comm]
  exact Nat.div_add_mod i w

theorem mem_gridSchedule (w h : ℕ) (p : ℕ × ℕ) :
    p ∈ gridSchedule w h ↔ p.1 < w ∧ p.2 < h := by
  constructor
  · intro hp
    rw [gridSchedule, List.mem_map] at hp
    obtain ⟨i, hi, rfl⟩ := hp
    rw [List.mem_range] at hi
    have hw : 0 < w := by
      rcases Nat.eq_zero_or_pos w with h0 | h0
      · subst h0; simp at hi
      · exact h0
    refine ⟨Nat.mod_lt i hw, ?_⟩
    rw [Nat.div_lt_iff_lt_mul hw]
    exact Nat.lt_of_lt_of_le hi (Nat.le_of_eq (Nat.mul_comm w h))
  · intro ⟨hx, hy⟩
    rw [gridSchedule, List.mem_map]
    have hw : 0 < w := Nat.lt_of_le_of_lt (Nat.zero_le _) hx
    refine ⟨p.2 * w + p.1, ?_, ?_⟩
    · rw [List.mem_range]
      calc p.2 * w + p.1 < p.2 * w + w := by omega
        _ = (p.2 + 1) * w := by ring
        _ ≤ h * w := Nat.mul_le_mul_right w hy
        _ = w * h := Nat.mul_comm h w
    · have hmod : (p.2 * w + p.1) % w = p.1 := by
        rw [Nat.mul_comm p.2 w, Nat.mul_add_mod, Nat.mod_eq_of_lt hx]
      have hdiv : (p.2 * w + p.1) / w = p.2 := by
        rw [Nat.mul_comm p.2 w, Nat.mul_add_div hw, Nat.div_eq_of_lt hx, Nat.add_zero]
      rw [hmod, hdiv]

theorem slot_injective {w : ℕ} {x y x2 y2 : ℕ} (hx : x < w) (hx2 : x2 < w)
    (he : y * w + x = y2 * w + x2) : x = x2 ∧ y = y2 := by
  have hw : 0 < w := Nat.lt_of_le_of_lt (Nat.zero_le _) hx
  have h1 : (y * w + x) % w = x := by
    rw [Nat.mul_comm y w, Nat.mul_add_mod, Nat.mod_eq_of_lt hx]
  have h2 : (y2 * w + x2) % w = x2 := by
    rw [Nat.mul_comm y2 w, Nat.mul_add_mod, Nat.mod_eq_of_lt hx2]
  have hxx : x = x2 := by rw [← h1, ← h2, he]
  subst hxx
  refine ⟨rfl, ?_⟩
  have : y * w = y2 * w := by omega
  exact Nat.eq_of_mul_eq_mul_right hw this

theorem mandelbrotKernel_in_range (w h bound : ℕ) (out : List ℕ) (p : ℕ × ℕ)
    (hp : p.1 < w ∧ p.2 < h) :
    mandelbrotKernel w h bound out p =
      out.set (p.2 * w + p.1) (mandelbrot p.1 p.2 w h bound) := by
  unfold mandelbrotKernel
  rw [if_neg (by omega)]

theorem mandelbrotKernel_comm (w h bound : ℕ) (out : List ℕ) (p q : ℕ × ℕ)
    (hp : p.1 < w ∧ p.2 < h) (hq : q.1 < w ∧ q.2 < h) :
    mandelbrotKernel w h bound (mandelbrotKernel w h bound out p) q =
      mandelbrotKernel w h bound (mandelbrotKernel w h bound out q) p := by
  obtain ⟨px, py⟩ := p
  obtain ⟨qx, qy⟩ := q
  simp only at hp hq
  by_cases hpq : px = qx ∧ py = qy
  · rw [hpq.1, hpq.2]
  · have hne : py * w + px ≠ qy * w + qx := by
      intro he
      exact hpq (slot_injective hp.1 hq.1 he)
    calc mandelbrotKernel w h bound (mandelbrotKernel w h bound out (px, py)) (qx, qy)
        = (out.set (py * w + px) (mandelbrot px py w h bound)).set
            (qy * w + qx) (mandelbrot qx qy w h bound) := by
          rw [mandelbrotKernel_in_range w h bound out (px, py) hp,
            mandelbrotKernel_in_range w h bound _ (qx, qy) hq]
      _ = (out.set (qy * w + qx) (mandelbrot qx qy w h bound)).set
            (py * w + px) (mandelbrot px py w h bound) :=
          List.set_comm _ _ out hne
      _ = mandelbrotKernel w h bound (mandelbrotKernel w h bound out (qx, qy)) (px, py) := by
          rw [mandelbrotKernel_in_range w h bound out (qx, qy) hq,
            mandelbrotKernel_in_range w h bound _ (px, py) hp]

theorem runWith_range_getElem (w h bound : ℕ) :
    ∀ (n : ℕ), n ≤ w * h → ∀ (init : List ℕ), init.length = w * h → ∀ (j : ℕ),
      (runWith w h bound ((List.range n).map (fun i => (i % w, i / w))) init)[j]? =
        if j < n then some (mandelbrot (j % w) (j / w) w h bound) else init[j]? := by
  intro n
  induction n with
  | zero =>
    intro _ init _ j
    simp [runWith]
  | succ n ih =>
    intro hn init hlen j
    have hw : 0 < w := by
      rcases Nat.eq_zero_or_pos w with h0 | h0
      · subst h0; rw [Nat.zero_mul] at hn; omega
      · exact h0
    have hsplit : runWith w h bound ((List.range (n + 1)).map (fun i => (i % w, i / w))) init =
        mandelbrotKernel w h bound
          (runWith w h bound ((List.range n).map (fun i => (i % w, i / w))) init)
          (n % w, n / w) := by
      rw [List.range_succ]
      simp only [List.map_append, List.map_cons, List.map_nil]
      rw [runWith, List.foldl_append, List.foldl_cons, List.foldl_nil]
      rfl
    have hgrid : (n % w, n / w).1 < w ∧ (n % w, n / w).2 < h := by
      refine ⟨Nat.mod_lt n hw, ?_⟩
      show n / w < h
      rw [Nat.div_lt_iff_lt_mul hw, Nat.mul_comm h w]
      omega
    rw [hsplit, mandelbrotKernel_in_range w h bound _ _ hgrid]
    show ((runWith w h bound ((List.range n).map (fun i => (i % w, i / w))) init).set
        ((n / w) * w + n % w) (mandelbrot (n % w) (n / w) w h bound))[j]? = _
    rw [slot_of_index w, List.getElem?_set, length_runWith, hlen,
      ih (by omega) init hlen j]
    by_cases hj : n = j
    · subst hj
      rw [if_pos rfl, if_pos (by omega), if_pos (by omega)]
    · rw [if_neg hj]
      by_cases hjn : j < n
      · rw [if_pos hjn, if_pos (by omega)]
      · rw [if_neg hjn, if_neg (by omega)]

theorem runMap_getElem (w h bound : ℕ) {j : ℕ} (hj : j < w * h) :
    (runMap w h bound)[j]? = some (mandelbrot (j % w) (j / w) w h bound) := by
  have hkey := runWith_range_getElem w h bound (w * h) (Nat.le_refl _)
    (List.replicate (w * h) 0) (by simp) j
  rw [if_pos hj] at hkey
  exact hkey

/-! Claim theorems. -/

/-- C1: for every grid point (x, y) with 0 <= x < width, 0 <= y < height,
width >= 2, height >= 2, iterationBound >= 1, the kernel computes
c_real = x * 3.0 / (width - 1) - 2.0 and c_imag = y * 2.0 / (height - 1) - 1.0,
iterates z <- z^2 + c from z = (0, 0), and returns the first iteration index
i in [1, iterationBound] at which the squared norm exceeds 4.0, or 0 if no
iteration within the bound exceeds the threshold. -/
theorem kernel_first_escape (x y w h bound : ℕ)
    (hx : x < w) (hy : y < h) (hw : 2 ≤ w) (hh : 2 ≤ h) (hb : 1 ≤ bound) :
    (mandelbrot x y w h bound = 0 ∧
      ∀ i, 1 ≤ i → i ≤ bound → ¬ escapesAt (c_real x w) (c_imag y h) i) ∨
    (1 ≤ mandelbrot x y w h bound ∧ mandelbrot x y w h bound ≤ bound ∧
      escapesAt (c_real x w) (c_imag y h) (mandelbrot x y w h bound) ∧
      ∀ j, 1 ≤ j → j < mandelbrot x y w h bound →
        ¬ escapesAt (c_real x w) (c_imag y h) j) := by
  have hkey := mandelLoop_firstEscape (c_real x w) (c_imag y h) bound 0
  simpa [mandelbrot, orbit] using hkey

theorem kernel_first_escape_witness :
    ((0 : ℕ) < 3 ∧ (2 : ℕ) ≤ 3 ∧ (1 : ℕ) ≤ 2) ∧
    ((mandelbrot 0 0 3 3 2 = 0 ∧
        ∀ i, 1 ≤ i → i ≤ 2 → ¬ escapesAt (c_real 0 3) (c_imag 0 3) i) ∨
      (1 ≤ mandelbrot 0 0 3 3 2 ∧ mandelbrot 0 0 3 3 2 ≤ 2 ∧
        escapesAt (c_real 0 3) (c_imag 0 3) (mandelbrot 0 0 3 3 2) ∧
        ∀ j, 1 ≤ j → j < mandelbrot 0 0 3 3 2 →
          ¬ escapesAt (c_real 0 3) (c_imag 0 3) j)) :=
  ⟨⟨by decide, by decide, by decide⟩,
    kernel_first_escape 0 0 3 3 2 (by decide) (by decide) (by decide) (by decide)
      (by decide)⟩

/-- C2 counterexample: the claim says a call of run with iterationBound < 1 is
rejected before any device work and no DivergenceMap is produced; but main
(lines 61-87) performs no precondition check, and with iterationBound = 0 the
launch proceeds and a DivergenceMap of width * height entries is produced. -/
theorem run_no_validation_counterexample :
    ¬ (1 ≤ (0 : ℕ)) ∧ run 2 2 0 ≠ none ∧ run 2 2 0 = some (runMap 2 2 0) ∧
      (runMap 2 2 0).length = 4 := by
  refine ⟨by decide, by simp [run], rfl, ?_⟩
  rw [runMap_length]

/-- C2 amended: the harness performs no validation of width, height or
iterationBound: even when width < 2, height < 2 or iterationBound < 1, the
buffer is allocated, the kernel launch proceeds, and a DivergenceMap of
width * height entries is produced. -/
theorem run_proceeds_without_validation (w h bound : ℕ)
    (hviol : w < 2 ∨ h < 2 ∨ bound < 1) :
    ∃ m, run w h bound = some m ∧ m.length = w * h :=
  ⟨runMap w h bound, rfl, runMap_length w h bound⟩

theorem run_proceeds_without_validation_witness :
    ((2 : ℕ) < 2 ∨ (2 : ℕ) < 2 ∨ (0 : ℕ) < 1) ∧
      ∃ m, run 2 2 0 = some m ∧ m.length = 2 * 2 :=
  ⟨by decide, run_proceeds_without_validation 2 2 0 (by decide)⟩

/-- C3: for every valid input (width >= 2, height >= 2, iterationBound >= 1),
every entry v of the resulting DivergenceMap satisfies 0 <= v <= iterationBound. -/
theorem divergence_map_entries_in_range (w h bound : ℕ)
    (hw : 2 ≤ w) (hh : 2 ≤ h) (hb : 1 ≤ bound) :
    ∀ v ∈ runMap w h bound, 0 ≤ v ∧ v ≤ bound := by
  intro v hv
  refine ⟨Nat.zero_le v, ?_⟩
  rw [List.mem_iff_getElem?] at hv
  obtain ⟨j, hj⟩ := hv
  have hjlen : j < (runMap w h bound).length := by
    obtain ⟨hlt, -⟩ := List.getElem?_eq_some_iff.mp hj
    exact hlt
  rw [runMap_length] at hjlen
  rw [runMap_getElem w h bound hjlen] at hj
  have hle := mandelbrot_le_bound (j % w) (j / w) w h bound
  have hv2 := Option.some.inj hj
  omega

theorem divergence_map_entries_in_range_witness :
    ((2 : ℕ) ≤ 2 ∧ (1 : ℕ) ≤ 1) ∧ ∀ v ∈ runMap 2 2 1, 0 ≤ v ∧ v ≤ 1 :=
  ⟨⟨by decide, by decide⟩,
    divergence_map_entries_in_range 2 2 1 (by decide) (by decide) (by decide)⟩

/-- C4: every slot of the DivergenceMap is written exactly once, by exactly one
kernel invocation: the invocation for in-range (x, y) writes only slot
y * width + x, the slot map is injective on the grid, the slots cover all of
[0, width * height), and the launch schedule runs each grid point exactly once. -/
theorem divergence_map_write_once (w h : ℕ) (hw : 2 ≤ w) (hh : 2 ≤ h) :
    (∀ (bound : ℕ) (out : List ℕ) (p : ℕ × ℕ) (j : ℕ),
        p.1 < w → p.2 < h → j ≠ p.2 * w + p.1 →
        (mandelbrotKernel w h bound out p)[j]? = out[j]?) ∧
    (∀ x y x2 y2 : ℕ, x < w → y < h → x2 < w → y2 < h →
        y * w + x = y2 * w + x2 → x = x2 ∧ y = y2) ∧
    (∀ i, i < w * h → ∃ x y, x < w ∧ y < h ∧ y * w + x = i) ∧
    (gridSchedule w h).Nodup ∧
    (∀ p : ℕ × ℕ, p ∈ gridSchedule w h ↔ p.1 < w ∧ p.2 < h) := by
  have hw0 : 0 < w := by omega
  refine ⟨?_, ?_, ?_, ?_, mem_gridSchedule w h⟩
  · intro bound out p j hp1 hp2 hj
    rw [mandelbrotKernel_in_range w h bound out p ⟨hp1, hp2⟩]
    exact List.getElem?_set_ne (fun he => hj he.symm)
  · intro x y x2 y2 hx hy hx2 hy2 he
    exact slot_injective hx hx2 he
  · intro i hi
    refine ⟨i % w, i / w, Nat.mod_lt i hw0, ?_, slot_of_index w⟩
    rw [Nat.div_lt_iff_lt_mul hw0, Nat.mul_comm h w]
    exact hi
  · refine List.Nodup.map ?_ (List.nodup_range _)
    intro a b hab
    simp only [Prod.mk.injEq] at hab
    calc a = (a / w) * w + a % w := (slot_of_index w).symm
      _ = (b / w) * w + b % w := by rw [hab.1, hab.2]
      _ = b := slot_of_index w

theorem divergence_map_write_once_witness :
    ((2 : ℕ) ≤ 2) ∧
    ((∀ (bound : ℕ) (out : List ℕ) (p : ℕ × ℕ) (j : ℕ),
        p.1 < 2 → p.2 < 2 → j ≠ p.2 * 2 + p.1 →
        (mandelbrotKernel 2 2 bound out p)[j]? = out[j]?) ∧
      (∀ x y x2 y2 : ℕ, x < 2 → y < 2 → x2 < 2 → y2 < 2 →
        y * 2 + x = y2 * 2 + x2 → x = x2 ∧ y = y2) ∧
      (∀ i, i < 2 * 2 → ∃ x y, x < 2 ∧ y < 2 ∧ y * 2 + x = i) ∧
      (gridSchedule 2 2).Nodup ∧
      (∀ p : ℕ × ℕ, p ∈ gridSchedule 2 2 ↔ p.1 < 2 ∧ p.2 < 2)) :=
  ⟨by decide, divergence_map_write_once 2 2 (by decide) (by decide)⟩

/-- C5: for fixed width >= 2 and height >= 2 and every grid point: a nonzero
kernel value k at iterationBound b is returned unchanged at every larger bound,
and a 0 value at bound b becomes either 0 or some nonzero value at a larger
bound. -/
theorem kernel_monotone_in_bound (x y w h b b2 k : ℕ)
    (hw : 2 ≤ w) (hh : 2 ≤ h) (hbb : b ≤ b2) :
    (mandelbrot x y w h b = k → k ≠ 0 → mandelbrot x y w h b2 = k) ∧
    (mandelbrot x y w h b = 0 →
      mandelbrot x y w h b2 = 0 ∨ mandelbrot x y w h b2 ≠ 0) := by
  constructor
  · intro hk hk0
    have hne : mandelLoop (c_real x w) (c_imag y h) 0 0 1 b ≠ 0 :=
      fun hz => hk0 (hk.symm.trans hz)
    have hst := mandelLoop_pos_stable (c_real x w) (c_imag y h) b b2 hbb 0 0 1 hne
    calc mandelbrot x y w h b2
        = mandelLoop (c_real x w) (c_imag y h) 0 0 1 b2 := rfl
      _ = mandelLoop (c_real x w) (c_imag y h) 0 0 1 b := hst
      _ = k := hk
  · intro _
    by_cases h0 : mandelbrot x y w h b2 = 0
    · exact Or.inl h0
    · exact Or.inr h0

theorem kernel_monotone_in_bound_witness :
    ((2 : ℕ) ≤ 2 ∧ (1 : ℕ) ≤ 5) ∧ mandelbrot 0 0 2 2 5 = 1 :=
  ⟨⟨by decide, by decide⟩,
    (kernel_monotone_in_bound 0 0 2 2 1 5 1 (by decide) (by decide) (by decide)).1
      (by norm_num [mandelbrot, mandelLoop, c_real, c_imag, stepZ, normSq])
      (by decide)⟩

/-- C6: for every grid point whose coordinate mapping yields exactly
c_real = 0.0 and c_imag = 0.0, the kernel returns 0 for every
iterationBound >= 1. -/
theorem kernel_origin_never_diverges (x y w h bound : ℕ)
    (hcr : c_real x w = 0) (hci : c_imag y h = 0) (hb : 1 ≤ bound) :
    mandelbrot x y w h bound = 0 := by
  unfold mandelbrot
  rw [hcr, hci]
  exact mandelLoop_zero_c bound 1

theorem kernel_origin_never_diverges_witness :
    (c_real 2 4 = 0 ∧ c_imag 1 3 = 0 ∧ (1 : ℕ) ≤ 1) ∧ mandelbrot 2 1 4 3 1 = 0 :=
  ⟨⟨by norm_num [c_real], by norm_num [c_imag], by decide⟩,
    kernel_origin_never_diverges 2 1 4 3 1 (by norm_num [c_real])
      (by norm_num [c_imag]) (by decide)⟩

/-- C7: for width = 2, height = 2, iterationBound = 1, the invocation at
grid point (0, 0) maps to c_real = -2.0, c_imag = -1.0; the first iteration
yields z = (-2.0, -1.0) with squared norm 5.0 > 4.0, so the kernel returns 1. -/
theorem boundary_scenario_2x2 :
    c_real 0 2 = -2 ∧ c_imag 0 2 = -1 ∧
    orbit (c_real 0 2) (c_imag 0 2) 1 = (-2, -1) ∧
    normSq (-2) (-1) = 5 ∧ ((4 : ℚ) < 5) ∧
    mandelbrot 0 0 2 2 1 = 1 := by
  refine ⟨?_, ?_, ?_, ?_, by norm_num, ?_⟩ <;>
    norm_num [c_real, c_imag, orbit, stepZ, normSq, mandelbrot, mandelLoop,
      Prod.ext_iff]

/-- C8: the harness allocates an output region of exactly width * height
integer slots of 32-bit-or-wider elements for the DivergenceMap: the device
buffer of line 68 holds width * height slots of 8 bytes each, and the host
array of line 82 holds width * height elements of np.int32. -/
theorem buffer_allocation_sizes (w h : ℕ) :
    (∃ s, 4 ≤ s ∧ dOutNbytes w h = w * h * s) ∧
    hOutSlots w h = w * h ∧ int32Itemsize = 4 :=
  ⟨⟨8, by omega, rfl⟩, Nat.mul_comm h w, rfl⟩

/-- C9: for fixed (width, height, iterationBound), two runs of the evaluator
produce identical DivergenceMaps: the final buffer does not depend on the
order in which the scheduled work items execute, only on the three inputs. -/
theorem run_schedule_deterministic (w h bound : ℕ) (o1 o2 : List (ℕ × ℕ))
    (h1 : o1.Perm (gridSchedule w h)) (h2 : o2.Perm (gridSchedule w h)) :
    runWith w h bound o1 (List.replicate (w * h) 0) =
      runWith w h bound o2 (List.replicate (w * h) 0) := by
  have key : ∀ o : List (ℕ × ℕ), o.Perm (gridSchedule w h) →
      runWith w h bound o (List.replicate (w * h) 0) = runMap w h bound := by
    intro o ho
    rw [runMap]
    apply List.Perm.foldl_eq' ho
    intro p hp q hq z
    exact mandelbrotKernel_comm w h bound z p q
      ((mem_gridSchedule w h p).mp (ho.subset hp))
      ((mem_gridSchedule w h q).mp (ho.subset hq))
  rw [key o1 h1, key o2 h2]

theorem run_schedule_deterministic_witness :
    ((gridSchedule 2 2).reverse.Perm (gridSchedule 2 2) ∧
      (gridSchedule 2 2).Perm (gridSchedule 2 2)) ∧
    runWith 2 2 1 (gridSchedule 2 2).reverse (List.replicate (2 * 2) 0) =
      runWith 2 2 1 (gridSchedule 2 2) (List.replicate (2 * 2) 0) :=
  ⟨⟨(gridSchedule 2 2).reverse_perm, List.Perm.refl _⟩,
    run_schedule_deterministic 2 2 1 _ _ ((gridSchedule 2 2).reverse_perm)
      (List.Perm.refl _)⟩

/-- C10: a kernel invocation with x >= width or y >= height returns through the
guard of lines 31-33 without writing, leaving every slot of the output buffer
unchanged. -/
theorem kernel_out_of_range_frame (w h bound : ℕ) (p : ℕ × ℕ) (out : List ℕ)
    (hrange : w ≤ p.1 ∨ h ≤ p.2) :
    mandelbrotKernel w h bound out p = out := by
  unfold mandelbrotKernel
  rw [if_pos hrange]

theorem kernel_out_of_range_frame_witness :
    ((2 : ℕ) ≤ 7 ∨ (2 : ℕ) ≤ 0) ∧
      mandelbrotKernel 2 2 1 [5, 5, 5, 5] (7, 0) = [5, 5, 5, 5] :=
  ⟨Or.inl (by decide),
    kernel_out_of_range_frame 2 2 1 (7, 0) [5, 5, 5, 5] (Or.inl (by decide))⟩

end Mandelbrot
